import Mathlib

/-!
Verification of the raw-audio encoding subsystem and the SRT cleanup helper
of the storyboard-generation tool.

The source is TypeScript running in a browser.  The embedding models:
  * byte buffers (`ArrayBuffer`/`DataView`) as `List Nat` of bytes;
  * `DataView.setUint8/setUint16/setUint32/setInt16` as little-endian byte
    stores with the wraparound (`ToUint8`/`ToUint16`/`ToUint32`/`ToInt16`)
    semantics made explicit via `% 256`, `% 2^16`, `% 2^32`;
  * JS strings as `List Char` (or Lean `String` for the base64 entry point);
  * fallible operations (`atob` on malformed input, the `Int16Array`
    constructor on an odd-length buffer, both of which throw) as `Option`.
-/

/-- Little-endian bytes of `DataView.setUint16 (v, littleEndian := true)`:
the value is reduced mod 2^16 and stored as two bytes. -/
def u16le (v : Nat) : List Nat :=
  [v % 256, v / 256 % 256]

/-- Little-endian bytes of `DataView.setUint32 (v, littleEndian := true)`:
the value is reduced mod 2^32 and stored as four bytes. -/
def u32le (v : Nat) : List Nat :=
  [v % 256, v / 256 % 256, v / 65536 % 256, v / 16777216 % 256]

/-- Little-endian bytes of `DataView.setInt16 (v, littleEndian := true)`:
two's-complement reduction mod 2^16 (JS `ToInt16`), then two bytes. -/
def i16le (s : Int) : List Nat :=
  u16le (s % 65536).toNat

/-- Model of the source's `writeString` helper: the code units written by
`charCodeAt` through `setUint8` (which truncates mod 2^8). -/
def strBytes (s : String) : List Nat :=
  s.toList.map (fun c => c.toNat % 256)

/-- Sequential byte stores: `storeBytes buf off bs` writes the bytes `bs`
at consecutive offsets starting at `off`, exactly as a run of
`view.setUint8 (off + i) b` calls does. -/
def storeBytes (buf : List Nat) (off : Nat) : List Nat → List Nat
  | [] => buf
  | b :: bs => storeBytes (buf.set off b) (off + 1) bs

/-- The sample-writing loop of `pcmToWav`: for each sample a
`setInt16 (offset, sample, true)` store, advancing the offset by 2. -/
def writeSamples (buf : List Nat) (off : Nat) : List Int → List Nat
  | [] => buf
  | s :: ss => writeSamples (storeBytes buf off (i16le s)) (off + 2) ss

/-- The WAV container writer `pcmToWav` of the source, write for write:
allocate `44 + dataSize` zero bytes, store the RIFF/fmt/data header fields
at their fixed offsets, then store every sample as little-endian signed
16-bit starting at offset 44.  (The source finally wraps the buffer in a
`Blob`; the model returns the underlying bytes.) -/
def pcmToWav (pcmData : List Int) (sampleRate : Nat) : List Nat :=
  let numChannels := 1
  let bitsPerSample := 16
  let byteRate := sampleRate * numChannels * bitsPerSample / 8
  let blockAlign := numChannels * bitsPerSample / 8
  let dataSize := pcmData.length * 2
  let buffer := List.replicate (44 + dataSize) 0
  let b1 := storeBytes buffer 0 (strBytes "RIFF")
  let b2 := storeBytes b1 4 (u32le (36 + dataSize))
  let b3 := storeBytes b2 8 (strBytes "WAVE")
  let b4 := storeBytes b3 12 (strBytes "fmt ")
  let b5 := storeBytes b4 16 (u32le 16)
  let b6 := storeBytes b5 20 (u16le 1)
  let b7 := storeBytes b6 22 (u16le numChannels)
  let b8 := storeBytes b7 24 (u32le sampleRate)
  let b9 := storeBytes b8 28 (u32le byteRate)
  let b10 := storeBytes b9 32 (u16le blockAlign)
  let b11 := storeBytes b10 34 (u16le bitsPerSample)
  let b12 := storeBytes b11 36 (strBytes "data")
  let b13 := storeBytes b12 40 (u32le dataSize)
  writeSamples b13 44 pcmData

/-- The data section of a WAV file as a plain concatenation: each sample's
two little-endian bytes, in order. -/
def samplesBytes : List Int → List Nat
  | [] => []
  | s :: ss => i16le s ++ samplesBytes ss

/-- The byte of a buffer at index `i` (0 when out of range), used to state
what a reader of the produced file observes. -/
def byteAt (buf : List Nat) (i : Nat) : Nat :=
  match buf.drop i with
  | [] => 0
  | b :: _ => b

/-- Reading an unsigned 16-bit little-endian value at offset `off`. -/
def readU16LE (buf : List Nat) (off : Nat) : Nat :=
  byteAt buf off + 256 * byteAt buf (off + 1)

/-- Reading an unsigned 32-bit little-endian value at offset `off`. -/
def readU32LE (buf : List Nat) (off : Nat) : Nat :=
  byteAt buf off + 256 * byteAt buf (off + 1) + 65536 * byteAt buf (off + 2)
    + 16777216 * byteAt buf (off + 3)

/-- Reading a signed 16-bit little-endian value at offset `off`
(two's complement). -/
def readI16LE (buf : List Nat) (off : Nat) : Int :=
  if readU16LE buf off < 32768 then (readU16LE buf off : Int)
  else (readU16LE buf off : Int) - 65536

/-- The sample sequence an `Int16Array` view exposes over a byte buffer:
consecutive byte pairs, little-endian, two's complement; a trailing lone
byte yields no sample (the view requires an even byte length, see
`bytesToInt16`). -/
def toInt16s : List Nat → List Int
  | b0 :: b1 :: rest =>
    (if b0 + 256 * b1 < 32768 then ((b0 + 256 * b1 : Nat) : Int)
     else ((b0 + 256 * b1 : Nat) : Int) - 65536) :: toInt16s rest
  | _ => []

/-- Model of `new Int16Array(buffer)`: per the ECMAScript typed-array
constructor, a buffer whose byte length is not a multiple of 2 makes the
constructor throw a `RangeError` (modelled as `none`); otherwise the view
exposes the byte pairs as little-endian signed 16-bit integers. -/
def bytesToInt16 (bytes : List Nat) : Option (List Int) :=
  if bytes.length % 2 = 0 then some (toInt16s bytes) else none

/-- Modelled from the spec: the browser builtin `atob` consumes base64
alphabet characters; the value of one character, by char code (`A`-`Z`,
`a`-`z`, `0`-`9`, `+`, `/`), or `none` for a character outside the
alphabet (which makes `atob` throw). -/
def b64Val (c : Char) : Option Nat :=
  if 65 ≤ c.toNat ∧ c.toNat ≤ 90 then some (c.toNat - 65)
  else if 97 ≤ c.toNat ∧ c.toNat ≤ 122 then some (c.toNat - 97 + 26)
  else if 48 ≤ c.toNat ∧ c.toNat ≤ 57 then some (c.toNat - 48 + 52)
  else if c.toNat = 43 then some 62
  else if c.toNat = 47 then some 63
  else none

/-- The 6-bit values of a run of base64 characters, or `none` if any
character is outside the alphabet. -/
def b64Bits : List Char → Option (List Nat)
  | [] => some []
  | c :: cs =>
    match b64Val c, b64Bits cs with
    | some v, some vs => some (v :: vs)
    | _, _ => none

/-- Repacking 6-bit base64 values into 8-bit bytes: full groups of four
values give three bytes; a trailing group of two or three values gives
one or two bytes. -/
def packBits : List Nat → List Nat
  | a :: b :: c :: d :: rest =>
    (a * 4 + b / 16) :: ((b % 16) * 16 + c / 4) :: ((c % 4) * 64 + d) :: packBits rest
  | [a, b] => [a * 4 + b / 16]
  | [a, b, c] => [a * 4 + b / 16, (b % 16) * 16 + c / 4]
  | _ => []

/-- ASCII whitespace stripped by forgiving-base64 decoding. -/
def isAsciiWs (c : Char) : Bool :=
  c == ' ' || c == '\t' || c == '\n' || c == '\x0c' || c == '\r'

/-- Removing up to two `=` padding characters from the end of a base64
string. -/
def stripPad (cs : List Char) : List Char :=
  match cs.reverse with
  | '=' :: '=' :: t => t.reverse
  | '=' :: t => t.reverse
  | _ => cs

/-- Modelled from the spec: the preprocessing of the browser builtin
`atob` (WHATWG forgiving-base64): strip ASCII whitespace, then strip up to
two trailing `=` when the length is a multiple of 4. -/
def atobChars (s : String) : List Char :=
  let cs0 := s.toList.filter (fun c => !isAsciiWs c)
  if cs0.length % 4 == 0 then stripPad cs0 else cs0

/-- Modelled from the spec: the browser builtin `atob` (WHATWG
forgiving-base64 decode): after preprocessing, reject a remaining length
of 1 mod 4 or a character outside the alphabet (both throw, modelled as
`none`), and repack the 6-bit values into bytes. -/
def atob (s : String) : Option (List Nat) :=
  if (atobChars s).length % 4 == 1 then none
  else
    match b64Bits (atobChars s) with
    | none => none
    | some vs => some (packBits vs)

/-- The source's `decodeBase64ToInt16Array`: decode the base64 string with
`atob` (throws on malformed base64), copy the char codes into a
`Uint8Array` (each code truncated mod 2^8), and view the bytes as an
`Int16Array` (throws on an odd byte length). -/
def decodeBase64ToInt16Array (base64 : String) : Option (List Int) :=
  match atob base64 with
  | none => none
  | some binaryString => bytesToInt16 (binaryString.map (fun b => b % 256))

/-- Whitespace removed by JS `String.prototype.trim`: the ECMAScript
WhiteSpace production (TAB, VT, FF, SP, NBSP, ZWNBSP and the Unicode
Space_Separator category: U+1680, U+2000..U+200A, U+202F, U+205F, U+3000)
together with the LineTerminator production (LF, CR, LS U+2028,
PS U+2029). -/
def jsWs (c : Char) : Bool :=
  c == ' ' || c == '\t' || c == '\n' || c == '\x0b' || c == '\x0c' || c == '\r'
    || c == '\u00A0' || c == '\u1680'
    || (8192 ≤ c.toNat && c.toNat ≤ 8202)
    || c == '\u2028' || c == '\u2029' || c == '\u202F' || c == '\u205F'
    || c == '\u3000' || c == '\uFEFF'

/-- JS `String.prototype.trim` on a list of characters: drop whitespace
from both ends. -/
def trimChars (cs : List Char) : List Char :=
  ((cs.dropWhile jsWs).reverse.dropWhile jsWs).reverse

/-- JS `String.prototype.split('\n')` on a list of characters. -/
def splitOnNl : List Char → List (List Char)
  | [] => [[]]
  | c :: cs =>
    if c = '\n' then [] :: splitOnNl cs
    else
      match splitOnNl cs with
      | [] => [[c]]
      | l :: ls => (c :: l) :: ls

/-- The characters of the timestamp marker `-->`. -/
def arrowChars : List Char := ['-', '-', '>']

/-- Whether the second list begins with the first. -/
def startsWith : List Char → List Char → Bool
  | [], _ => true
  | _ :: _, [] => false
  | p :: ps, c :: cs => p == c && startsWith ps cs

/-- JS `String.prototype.includes`: whether `pat` occurs as a contiguous
run somewhere in the list. -/
def containsSeq (pat : List Char) : List Char → Bool
  | [] => startsWith pat []
  | c :: cs => startsWith pat (c :: cs) || containsSeq pat cs

/-- The filter of the source's `parseSrt` loop: skip a line that is empty
(`!line`), matches `/^\d+$/`, or contains `-->`. -/
def skipLine (line : List Char) : Bool :=
  line.isEmpty || (!line.isEmpty && line.all Char.isDigit)
    || containsSeq arrowChars line

/-- One iteration of the `parseSrt` loop: trim the line and either skip it
or append `" " + line` to the accumulated dialogue. -/
def addLine (dialogue : List Char) (l : List Char) : List Char :=
  if skipLine (trimChars l) then dialogue
  else dialogue ++ (' ' :: trimChars l)

/-- The source's `parseSrt`: remove every `\r`, split on `\n`, fold the
filtered trimmed lines into `dialogue`, and trim the result. -/
def parseSrt (content : List Char) : List Char :=
  trimChars ((splitOnNl (content.filter (fun c => !(c == '\r')))).foldl addLine [])

/-- Specification-side description of the lines `parseSrt` excludes: a
line whose trim is empty, consists solely of decimal digits, or contains
the substring `-->`. -/
def specSkip (t : List Char) : Bool :=
  t.isEmpty || t.all Char.isDigit || containsSeq arrowChars t

/-- Specification-side description of the lines `parseSrt` keeps, in
order: split the input (carriage returns removed) on newlines, trim each
line, and keep those not excluded. -/
def keptLines (content : List Char) : List (List Char) :=
  ((splitOnNl (content.filter (fun c => !(c == '\r')))).map trimChars).filter
    (fun t => !specSkip t)

/-- Joining lines with a single space between consecutive lines. -/
def joinSp : List (List Char) → List Char
  | [] => []
  | [l] => l
  | l :: ls => l ++ (' ' :: joinSp ls)

/-- The raw dialogue accumulator shape: every kept line is preceded by one
space. -/
def flattenSp : List (List Char) → List Char
  | [] => []
  | l :: ls => ' ' :: (l ++ flattenSp ls)

/-- Whether a list of characters begins with a non-whitespace character. -/
def headOk (t : List Char) : Bool :=
  match t with
  | [] => false
  | c :: _ => !jsWs c

-- ### Structural lemmas about `storeBytes`

theorem storeBytes_length (bs : List Nat) (buf : List Nat) (off : Nat) :
    (storeBytes buf off bs).length = buf.length := by
  induction bs generalizing buf off with
  | nil => rfl
  | cons b bs ih => simp [storeBytes, ih]

theorem set_append_add (xs ys : List Nat) (k : Nat) (b : Nat) :
    (xs ++ ys).set (xs.length + k) b = xs ++ ys.set k b := by
  induction xs with
  | nil => simp
  | cons x xs ih =>
    show List.set (x :: (xs ++ ys)) (xs.length + 1 + k) b = _
    have h1 : xs.length + 1 + k = (xs.length + k) + 1 := by omega
    rw [h1]
    simp [List.set, ih]

theorem storeBytes_append (bs : List Nat) (xs ys : List Nat) (j k : Nat)
    (hk : xs.length + j = k) :
    storeBytes (xs ++ ys) k bs = xs ++ storeBytes ys j bs := by
  induction bs generalizing ys j k with
  | nil => rfl
  | cons b bs ih =>
    subst hk
    show storeBytes ((xs ++ ys).set (xs.length + j) b) (xs.length + j + 1) bs = _
    rw [set_append_add]
    have h2 : xs.length + (j + 1) = xs.length + j + 1 := by omega
    rw [ih (ys.set j b) (j + 1) _ h2]
    rfl

theorem storeBytes_zero (bs : List Nat) (ys : List Nat) (h : bs.length ≤ ys.length) :
    storeBytes ys 0 bs = bs ++ ys.drop bs.length := by
  induction bs generalizing ys with
  | nil => simp [storeBytes]
  | cons b bs ih =>
    cases ys with
    | nil => simp at h
    | cons y ys =>
      show storeBytes ((y :: ys).set 0 b) 1 bs = _
      have h1 : storeBytes (b :: ys) 1 bs = [b] ++ storeBytes ys 0 bs :=
        storeBytes_append bs [b] ys 0 1 rfl
      simp only [List.set]
      rw [h1, ih ys (by simpa using h)]
      simp

theorem storeBytes_left (bs : List Nat) (xs tail : List Nat) (k : Nat)
    (h : k + bs.length ≤ xs.length) :
    storeBytes (xs ++ tail) k bs = storeBytes xs k bs ++ tail := by
  induction bs generalizing xs k with
  | nil => rfl
  | cons b bs ih =>
    show storeBytes ((xs ++ tail).set k b) (k + 1) bs = _
    have hk : k < xs.length := by simp at h; omega
    have h1 : (xs ++ tail).set k b = xs.set k b ++ tail := by
      rw [List.set_append]
      simp [hk]
    rw [h1, ih (xs.set k b) (k + 1) (by simp at h ⊢; omega)]
    rfl

theorem writeSamples_eq_aux (pcm : List Int) (xs : List Nat) (k : Nat)
    (hk : xs.length = k) :
    writeSamples (xs ++ List.replicate (pcm.length * 2) 0) k pcm
      = xs ++ samplesBytes pcm := by
  induction pcm generalizing xs k with
  | nil => simp [writeSamples, samplesBytes]
  | cons s ss ih =>
    show writeSamples
        (storeBytes (xs ++ List.replicate ((s :: ss).length * 2) 0) k (i16le s))
        (k + 2) ss = _
    have hrep : (s :: ss).length * 2 = 2 + ss.length * 2 := by
      simp [List.length_cons]; omega
    rw [hrep, List.replicate_add,  ← List.append_assoc]
    have hstore : storeBytes ((xs ++ List.replicate 2 0) ++ List.replicate (ss.length * 2) 0)
        k (i16le s) = (xs ++ i16le s) ++ List.replicate (ss.length * 2) 0 := by
      rw [storeBytes_left (i16le s) _ _ k
          (by simp [i16le, u16le, hk])]
      congr 1
      rw [storeBytes_append (i16le s) xs (List.replicate 2 0) 0 k (by omega)]
      rw [storeBytes_zero (i16le s) _ (by simp [i16le, u16le])]
      simp [i16le, u16le]
    rw [hstore, ih (xs ++ i16le s) (k + 2) (by simp [i16le, u16le, hk])]
    simp [samplesBytes]

theorem writeSamples_eq (pcm : List Int) (xs : List Nat) (m k : Nat)
    (hk : xs.length = k) (hm : m = pcm.length * 2) :
    writeSamples (xs ++ List.replicate m 0) k pcm = xs ++ samplesBytes pcm := by
  subst hm
  exact writeSamples_eq_aux pcm xs k hk

theorem strBytes_RIFF : strBytes "RIFF" = [82, 73, 70, 70] := by decide

theorem strBytes_WAVE : strBytes "WAVE" = [87, 65, 86, 69] := by decide

theorem strBytes_fmt : strBytes "fmt " = [102, 109, 116, 32] := by decide

theorem strBytes_data : strBytes "data" = [100, 97, 116, 97] := by decide

/-- One header write on a buffer whose written prefix is `X` and whose
rest is still zero-filled. -/
theorem store_chunk (bs X : List Nat) (m k : Nat) (hk : X.length = k)
    (h : bs.length ≤ m) :
    storeBytes (X ++ List.replicate m 0) k bs
      = (X ++ bs) ++ List.replicate (m - bs.length) 0 := by
  rw [storeBytes_append bs X _ 0 k (by omega)]
  rw [storeBytes_zero bs _ (by simp [h])]
  rw [List.drop_replicate, List.append_assoc]

/-- Structural form of `pcmToWav`: the buffer it builds by in-place stores
is the concatenation of the thirteen header fields followed by the sample
bytes. -/
theorem pcmToWav_eq (pcm : List Int) (R : Nat) :
    pcmToWav pcm R =
      strBytes "RIFF" ++ (u32le (36 + pcm.length * 2) ++ (strBytes "WAVE"
        ++ (strBytes "fmt " ++ (u32le 16 ++ (u16le 1 ++ (u16le 1 ++ (u32le R
        ++ (u32le (R * 1 * 16 / 8) ++ (u16le (1 * 16 / 8) ++ (u16le 16
        ++ (strBytes "data" ++ (u32le (pcm.length * 2)
        ++ samplesBytes pcm)))))))))))) := by
  simp only [pcmToWav]
  rw [storeBytes_zero (strBytes "RIFF") _
    (by simp only [strBytes_RIFF, List.length_cons, List.length_nil,
      List.length_replicate]; omega)]
  rw [List.drop_replicate]
  rw [store_chunk _ _ _ _
    (by simp only [strBytes_RIFF, strBytes_WAVE, strBytes_fmt, strBytes_data, u32le, u16le,
      List.length_cons, List.length_nil, List.length_append])
    (by simp only [strBytes_RIFF, strBytes_WAVE, strBytes_fmt, strBytes_data, u32le, u16le,
      List.length_cons, List.length_nil, List.length_append]; omega)]
  rw [store_chunk _ _ _ _
    (by simp only [strBytes_RIFF, strBytes_WAVE, strBytes_fmt, strBytes_data, u32le, u16le,
      List.length_cons, List.length_nil, List.length_append])
    (by simp only [strBytes_RIFF, strBytes_WAVE, strBytes_fmt, strBytes_data, u32le, u16le,
      List.length_cons, List.length_nil, List.length_append]; omega)]
  rw [store_chunk _ _ _ _
    (by simp only [strBytes_RIFF, strBytes_WAVE, strBytes_fmt, strBytes_data, u32le, u16le,
      List.length_cons, List.length_nil, List.length_append])
    (by simp only [strBytes_RIFF, strBytes_WAVE, strBytes_fmt, strBytes_data, u32le, u16le,
      List.length_cons, List.length_nil, List.length_append]; omega)]
  rw [store_chunk _ _ _ _
    (by simp only [strBytes_RIFF, strBytes_WAVE, strBytes_fmt, strBytes_data, u32le, u16le,
      List.length_cons, List.length_nil, List.length_append])
    (by simp only [strBytes_RIFF, strBytes_WAVE, strBytes_fmt, strBytes_data, u32le, u16le,
      List.length_cons, List.length_nil, List.length_append]; omega)]
  rw [store_chunk _ _ _ _
    (by simp only [strBytes_RIFF, strBytes_WAVE, strBytes_fmt, strBytes_data, u32le, u16le,
      List.length_cons, List.length_nil, List.length_append])
    (by simp only [strBytes_RIFF, strBytes_WAVE, strBytes_fmt, strBytes_data, u32le, u16le,
      List.length_cons, List.length_nil, List.length_append]; omega)]
  rw [store_chunk _ _ _ _
    (by simp only [strBytes_RIFF, strBytes_WAVE, strBytes_fmt, strBytes_data, u32le, u16le,
      List.length_cons, List.length_nil, List.length_append])
    (by simp only [strBytes_RIFF, strBytes_WAVE, strBytes_fmt, strBytes_data, u32le, u16le,
      List.length_cons, List.length_nil, List.length_append]; omega)]
  rw [store_chunk _ _ _ _
    (by simp only [strBytes_RIFF, strBytes_WAVE, strBytes_fmt, strBytes_data, u32le, u16le,
      List.length_cons, List.length_nil, List.length_append])
    (by simp only [strBytes_RIFF, strBytes_WAVE, strBytes_fmt, strBytes_data, u32le, u16le,
      List.length_cons, List.length_nil, List.length_append]; omega)]
  rw [store_chunk _ _ _ _
    (by simp only [strBytes_RIFF, strBytes_WAVE, strBytes_fmt, strBytes_data, u32le, u16le,
      List.length_cons, List.length_nil, List.length_append])
    (by simp only [strBytes_RIFF, strBytes_WAVE, strBytes_fmt, strBytes_data, u32le, u16le,
      List.length_cons, List.length_nil, List.length_append]; omega)]
  rw [store_chunk _ _ _ _
    (by simp only [strBytes_RIFF, strBytes_WAVE, strBytes_fmt, strBytes_data, u32le, u16le,
      List.length_cons, List.length_nil, List.length_append])
    (by simp only [strBytes_RIFF, strBytes_WAVE, strBytes_fmt, strBytes_data, u32le, u16le,
      List.length_cons, List.length_nil, List.length_append]; omega)]
  rw [store_chunk _ _ _ _
    (by simp only [strBytes_RIFF, strBytes_WAVE, strBytes_fmt, strBytes_data, u32le, u16le,
      List.length_cons, List.length_nil, List.length_append])
    (by simp only [strBytes_RIFF, strBytes_WAVE, strBytes_fmt, strBytes_data, u32le, u16le,
      List.length_cons, List.length_nil, List.length_append]; omega)]
  rw [store_chunk _ _ _ _
    (by simp only [strBytes_RIFF, strBytes_WAVE, strBytes_fmt, strBytes_data, u32le, u16le,
      List.length_cons, List.length_nil, List.length_append])
    (by simp only [strBytes_RIFF, strBytes_WAVE, strBytes_fmt, strBytes_data, u32le, u16le,
      List.length_cons, List.length_nil, List.length_append]; omega)]
  rw [store_chunk _ _ _ _
    (by simp only [strBytes_RIFF, strBytes_WAVE, strBytes_fmt, strBytes_data, u32le, u16le,
      List.length_cons, List.length_nil, List.length_append])
    (by simp only [strBytes_RIFF, strBytes_WAVE, strBytes_fmt, strBytes_data, u32le, u16le,
      List.length_cons, List.length_nil, List.length_append]; omega)]
  rw [writeSamples_eq pcm _ _ 44
    (by simp only [strBytes_RIFF, strBytes_WAVE, strBytes_fmt, strBytes_data, u32le, u16le,
      List.length_cons, List.length_nil, List.length_append])
    (by simp only [strBytes_RIFF, strBytes_WAVE, strBytes_fmt, strBytes_data, u32le, u16le,
      List.length_cons, List.length_nil, List.length_replicate]; omega)]
  simp [List.append_assoc]

-- ### Reading back header fields

theorem byteAt_cons_succ (b : Nat) (l : List Nat) (n : Nat) :
    byteAt (b :: l) (n + 1) = byteAt l n := rfl

theorem byteAt_append (xs ys : List Nat) (n : Nat) :
    byteAt (xs ++ ys) (xs.length + n) = byteAt ys n := by
  induction xs with
  | nil => simp [byteAt]
  | cons x xs ih =>
    show byteAt (x :: (xs ++ ys)) (xs.length + 1 + n) = _
    have h : xs.length + 1 + n = (xs.length + n) + 1 := by omega
    rw [h, byteAt_cons_succ]
    exact ih

theorem readU32LE_append (xs ys : List Nat) (k j : Nat) (h : xs.length + j = k) :
    readU32LE (xs ++ ys) k = readU32LE ys j := by
  subst h
  unfold readU32LE
  have h1 : xs.length + j + 1 = xs.length + (j + 1) := by omega
  have h2 : xs.length + j + 2 = xs.length + (j + 2) := by omega
  have h3 : xs.length + j + 3 = xs.length + (j + 3) := by omega
  rw [h1, h2, h3, byteAt_append, byteAt_append, byteAt_append, byteAt_append]

theorem readU16LE_append (xs ys : List Nat) (k j : Nat) (h : xs.length + j = k) :
    readU16LE (xs ++ ys) k = readU16LE ys j := by
  subst h
  unfold readU16LE
  have h1 : xs.length + j + 1 = xs.length + (j + 1) := by omega
  rw [h1, byteAt_append, byteAt_append]

theorem readU32LE_u32le (v : Nat) (rest : List Nat) :
    readU32LE (u32le v ++ rest) 0 = v % 4294967296 := by
  show v % 256 + 256 * (v / 256 % 256) + 65536 * (v / 65536 % 256)
      + 16777216 * (v / 16777216 % 256) = v % 4294967296
  omega

theorem readU16LE_u16le (v : Nat) (rest : List Nat) :
    readU16LE (u16le v ++ rest) 0 = v % 65536 := by
  show v % 256 + 256 * (v / 256 % 256) = v % 65536
  omega

theorem drop_append_peel (xs ys : List Nat) (k j : Nat) (h : xs.length + j = k) :
    (xs ++ ys).drop k = ys.drop j := by
  subst h
  induction xs with
  | nil => simp
  | cons x xs ih =>
    show (x :: (xs ++ ys)).drop (xs.length + 1 + j) = _
    have h1 : xs.length + 1 + j = (xs.length + j) + 1 := by omega
    rw [h1, List.drop_succ_cons]
    exact ih

theorem field_chunkSize (pcm : List Int) (R : Nat) :
    readU32LE (pcmToWav pcm R) 4 = (36 + pcm.length * 2) % 4294967296 := by
  rw [pcmToWav_eq, strBytes_RIFF,
    readU32LE_append [82, 73, 70, 70] _ 4 0 (by simp), readU32LE_u32le]

theorem field_sub1Size (pcm : List Int) (R : Nat) :
    readU32LE (pcmToWav pcm R) 16 = 16 := by
  rw [pcmToWav_eq, strBytes_RIFF, strBytes_WAVE, strBytes_fmt]
  rw [readU32LE_append [82, 73, 70, 70] _ 16 12 (by simp)]
  rw [readU32LE_append (u32le (36 + pcm.length * 2)) _ 12 8 (by simp [u32le])]
  rw [readU32LE_append [87, 65, 86, 69] _ 8 4 (by simp)]
  rw [readU32LE_append [102, 109, 116, 32] _ 4 0 (by simp)]
  rw [readU32LE_u32le]

theorem field_audioFormat (pcm : List Int) (R : Nat) :
    readU16LE (pcmToWav pcm R) 20 = 1 := by
  rw [pcmToWav_eq, strBytes_RIFF, strBytes_WAVE, strBytes_fmt]
  rw [readU16LE_append [82, 73, 70, 70] _ 20 16 (by simp)]
  rw [readU16LE_append (u32le (36 + pcm.length * 2)) _ 16 12 (by simp [u32le])]
  rw [readU16LE_append [87, 65, 86, 69] _ 12 8 (by simp)]
  rw [readU16LE_append [102, 109, 116, 32] _ 8 4 (by simp)]
  rw [readU16LE_append (u32le 16) _ 4 0 (by simp [u32le])]
  rw [readU16LE_u16le]

theorem field_numChannels (pcm : List Int) (R : Nat) :
    readU16LE (pcmToWav pcm R) 22 = 1 := by
  rw [pcmToWav_eq, strBytes_RIFF, strBytes_WAVE, strBytes_fmt]
  rw [readU16LE_append [82, 73, 70, 70] _ 22 18 (by simp)]
  rw [readU16LE_append (u32le (36 + pcm.length * 2)) _ 18 14 (by simp [u32le])]
  rw [readU16LE_append [87, 65, 86, 69] _ 14 10 (by simp)]
  rw [readU16LE_append [102, 109, 116, 32] _ 10 6 (by simp)]
  rw [readU16LE_append (u32le 16) _ 6 2 (by simp [u32le])]
  rw [readU16LE_append (u16le 1) _ 2 0 (by simp [u16le])]
  rw [readU16LE_u16le]

theorem field_sampleRate (pcm : List Int) (R : Nat) :
    readU32LE (pcmToWav pcm R) 24 = R % 4294967296 := by
  rw [pcmToWav_eq, strBytes_RIFF, strBytes_WAVE, strBytes_fmt]
  rw [readU32LE_append [82, 73, 70, 70] _ 24 20 (by simp)]
  rw [readU32LE_append (u32le (36 + pcm.length * 2)) _ 20 16 (by simp [u32le])]
  rw [readU32LE_append [87, 65, 86, 69] _ 16 12 (by simp)]
  rw [readU32LE_append [102, 109, 116, 32] _ 12 8 (by simp)]
  rw [readU32LE_append (u32le 16) _ 8 4 (by simp [u32le])]
  rw [readU32LE_append (u16le 1) _ 4 2 (by simp [u16le])]
  rw [readU32LE_append (u16le 1) _ 2 0 (by simp [u16le])]
  rw [readU32LE_u32le]

theorem field_byteRate (pcm : List Int) (R : Nat) :
    readU32LE (pcmToWav pcm R) 28 = (R * 1 * 16 / 8) % 4294967296 := by
  rw [pcmToWav_eq, strBytes_RIFF, strBytes_WAVE, strBytes_fmt]
  rw [readU32LE_append [82, 73, 70, 70] _ 28 24 (by simp)]
  rw [readU32LE_append (u32le (36 + pcm.length * 2)) _ 24 20 (by simp [u32le])]
  rw [readU32LE_append [87, 65, 86, 69] _ 20 16 (by simp)]
  rw [readU32LE_append [102, 109, 116, 32] _ 16 12 (by simp)]
  rw [readU32LE_append (u32le 16) _ 12 8 (by simp [u32le])]
  rw [readU32LE_append (u16le 1) _ 8 6 (by simp [u16le])]
  rw [readU32LE_append (u16le 1) _ 6 4 (by simp [u16le])]
  rw [readU32LE_append (u32le R) _ 4 0 (by simp [u32le])]
  rw [readU32LE_u32le]

theorem field_blockAlign (pcm : List Int) (R : Nat) :
    readU16LE (pcmToWav pcm R) 32 = 2 := by
  rw [pcmToWav_eq, strBytes_RIFF, strBytes_WAVE, strBytes_fmt]
  rw [readU16LE_append [82, 73, 70, 70] _ 32 28 (by simp)]
  rw [readU16LE_append (u32le (36 + pcm.length * 2)) _ 28 24 (by simp [u32le])]
  rw [readU16LE_append [87, 65, 86, 69] _ 24 20 (by simp)]
  rw [readU16LE_append [102, 109, 116, 32] _ 20 16 (by simp)]
  rw [readU16LE_append (u32le 16) _ 16 12 (by simp [u32le])]
  rw [readU16LE_append (u16le 1) _ 12 10 (by simp [u16le])]
  rw [readU16LE_append (u16le 1) _ 10 8 (by simp [u16le])]
  rw [readU16LE_append (u32le R) _ 8 4 (by simp [u32le])]
  rw [readU16LE_append (u32le (R * 1 * 16 / 8)) _ 4 0 (by simp [u32le])]
  rw [readU16LE_u16le]

theorem field_bitsPerSample (pcm : List Int) (R : Nat) :
    readU16LE (pcmToWav pcm R) 34 = 16 := by
  rw [pcmToWav_eq, strBytes_RIFF, strBytes_WAVE, strBytes_fmt]
  rw [readU16LE_append [82, 73, 70, 70] _ 34 30 (by simp)]
  rw [readU16LE_append (u32le (36 + pcm.length * 2)) _ 30 26 (by simp [u32le])]
  rw [readU16LE_append [87, 65, 86, 69] _ 26 22 (by simp)]
  rw [readU16LE_append [102, 109, 116, 32] _ 22 18 (by simp)]
  rw [readU16LE_append (u32le 16) _ 18 14 (by simp [u32le])]
  rw [readU16LE_append (u16le 1) _ 14 12 (by simp [u16le])]
  rw [readU16LE_append (u16le 1) _ 12 10 (by simp [u16le])]
  rw [readU16LE_append (u32le R) _ 10 6 (by simp [u32le])]
  rw [readU16LE_append (u32le (R * 1 * 16 / 8)) _ 6 2 (by simp [u32le])]
  rw [readU16LE_append (u16le (1 * 16 / 8)) _ 2 0 (by simp [u16le])]
  rw [readU16LE_u16le]

theorem field_sub2Size (pcm : List Int) (R : Nat) :
    readU32LE (pcmToWav pcm R) 40 = (pcm.length * 2) % 4294967296 := by
  rw [pcmToWav_eq, strBytes_RIFF, strBytes_WAVE, strBytes_fmt, strBytes_data]
  rw [readU32LE_append [82, 73, 70, 70] _ 40 36 (by simp)]
  rw [readU32LE_append (u32le (36 + pcm.length * 2)) _ 36 32 (by simp [u32le])]
  rw [readU32LE_append [87, 65, 86, 69] _ 32 28 (by simp)]
  rw [readU32LE_append [102, 109, 116, 32] _ 28 24 (by simp)]
  rw [readU32LE_append (u32le 16) _ 24 20 (by simp [u32le])]
  rw [readU32LE_append (u16le 1) _ 20 18 (by simp [u16le])]
  rw [readU32LE_append (u16le 1) _ 18 16 (by simp [u16le])]
  rw [readU32LE_append (u32le R) _ 16 12 (by simp [u32le])]
  rw [readU32LE_append (u32le (R * 1 * 16 / 8)) _ 12 8 (by simp [u32le])]
  rw [readU32LE_append (u16le (1 * 16 / 8)) _ 8 6 (by simp [u16le])]
  rw [readU32LE_append (u16le 16) _ 6 4 (by simp [u16le])]
  rw [readU32LE_append [100, 97, 116, 97] _ 4 0 (by simp)]
  rw [readU32LE_u32le]

theorem field_tag_RIFF (pcm : List Int) (R : Nat) :
    (pcmToWav pcm R).take 4 = strBytes "RIFF" := by
  rw [pcmToWav_eq]
  exact List.take_left' (by rw [strBytes_RIFF]; rfl)

theorem field_tag_WAVE (pcm : List Int) (R : Nat) :
    ((pcmToWav pcm R).drop 8).take 4 = strBytes "WAVE" := by
  rw [pcmToWav_eq, strBytes_RIFF]
  rw [drop_append_peel [82, 73, 70, 70] _ 8 4 (by simp)]
  rw [drop_append_peel (u32le (36 + pcm.length * 2)) _ 4 0 (by simp [u32le])]
  rw [List.drop_zero]
  exact List.take_left' (by rw [strBytes_WAVE]; rfl)

theorem field_tag_fmt (pcm : List Int) (R : Nat) :
    ((pcmToWav pcm R).drop 12).take 4 = strBytes "fmt " := by
  rw [pcmToWav_eq, strBytes_RIFF, strBytes_WAVE]
  rw [drop_append_peel [82, 73, 70, 70] _ 12 8 (by simp)]
  rw [drop_append_peel (u32le (36 + pcm.length * 2)) _ 8 4 (by simp [u32le])]
  rw [drop_append_peel [87, 65, 86, 69] _ 4 0 (by simp)]
  rw [List.drop_zero]
  exact List.take_left' (by rw [strBytes_fmt]; rfl)

theorem field_tag_data (pcm : List Int) (R : Nat) :
    ((pcmToWav pcm R).drop 36).take 4 = strBytes "data" := by
  rw [pcmToWav_eq, strBytes_RIFF, strBytes_WAVE, strBytes_fmt]
  rw [drop_append_peel [82, 73, 70, 70] _ 36 32 (by simp)]
  rw [drop_append_peel (u32le (36 + pcm.length * 2)) _ 32 28 (by simp [u32le])]
  rw [drop_append_peel [87, 65, 86, 69] _ 28 24 (by simp)]
  rw [drop_append_peel [102, 109, 116, 32] _ 24 20 (by simp)]
  rw [drop_append_peel (u32le 16) _ 20 16 (by simp [u32le])]
  rw [drop_append_peel (u16le 1) _ 16 14 (by simp [u16le])]
  rw [drop_append_peel (u16le 1) _ 14 12 (by simp [u16le])]
  rw [drop_append_peel (u32le R) _ 12 8 (by simp [u32le])]
  rw [drop_append_peel (u32le (R * 1 * 16 / 8)) _ 8 4 (by simp [u32le])]
  rw [drop_append_peel (u16le (1 * 16 / 8)) _ 4 2 (by simp [u16le])]
  rw [drop_append_peel (u16le 16) _ 2 0 (by simp [u16le])]
  rw [List.drop_zero]
  exact List.take_left' (by rw [strBytes_data]; rfl)

theorem wav_data_section (pcm : List Int) (R : Nat) :
    (pcmToWav pcm R).drop 44 = samplesBytes pcm := by
  rw [pcmToWav_eq, strBytes_RIFF, strBytes_WAVE, strBytes_fmt, strBytes_data]
  rw [drop_append_peel [82, 73, 70, 70] _ 44 40 (by simp)]
  rw [drop_append_peel (u32le (36 + pcm.length * 2)) _ 40 36 (by simp [u32le])]
  rw [drop_append_peel [87, 65, 86, 69] _ 36 32 (by simp)]
  rw [drop_append_peel [102, 109, 116, 32] _ 32 28 (by simp)]
  rw [drop_append_peel (u32le 16) _ 28 24 (by simp [u32le])]
  rw [drop_append_peel (u16le 1) _ 24 22 (by simp [u16le])]
  rw [drop_append_peel (u16le 1) _ 22 20 (by simp [u16le])]
  rw [drop_append_peel (u32le R) _ 20 16 (by simp [u32le])]
  rw [drop_append_peel (u32le (R * 1 * 16 / 8)) _ 16 12 (by simp [u32le])]
  rw [drop_append_peel (u16le (1 * 16 / 8)) _ 12 10 (by simp [u16le])]
  rw [drop_append_peel (u16le 16) _ 10 8 (by simp [u16le])]
  rw [drop_append_peel [100, 97, 116, 97] _ 8 4 (by simp)]
  rw [drop_append_peel (u32le (pcm.length * 2)) _ 4 0 (by simp [u32le])]
  rw [List.drop_zero]

-- ### Length and byte-range helpers

theorem samplesBytes_length (pcm : List Int) :
    (samplesBytes pcm).length = pcm.length * 2 := by
  induction pcm with
  | nil => rfl
  | cons s ss ih =>
    show (i16le s ++ samplesBytes ss).length = _
    simp only [List.length_append, ih, i16le, u16le, List.length_cons,
      List.length_nil, List.length_cons]
    omega

theorem pcmToWav_length_aux (pcm : List Int) (R : Nat) :
    (pcmToWav pcm R).length = 44 + 2 * pcm.length := by
  rw [pcmToWav_eq, strBytes_RIFF, strBytes_WAVE, strBytes_fmt, strBytes_data]
  simp only [List.length_append, List.length_cons, List.length_nil, u32le, u16le,
    samplesBytes_length]
  omega

theorem mem_append_lt {l1 l2 : List Nat} (h1 : ∀ b ∈ l1, b < 256)
    (h2 : ∀ b ∈ l2, b < 256) : ∀ b ∈ l1 ++ l2, b < 256 := by
  intro b hb
  rcases List.mem_append.mp hb with h | h
  · exact h1 b h
  · exact h2 b h

theorem u32le_lt (v : Nat) : ∀ b ∈ u32le v, b < 256 := by
  intro b hb
  simp only [u32le, List.mem_cons, List.not_mem_nil, or_false] at hb
  rcases hb with h | h | h | h <;> omega

theorem u16le_lt (v : Nat) : ∀ b ∈ u16le v, b < 256 := by
  intro b hb
  simp only [u16le, List.mem_cons, List.not_mem_nil, or_false] at hb
  rcases hb with h | h <;> omega

theorem strBytes_lt (s : String) : ∀ b ∈ strBytes s, b < 256 := by
  intro b hb
  simp only [strBytes, List.mem_map] at hb
  obtain ⟨c, _, hc⟩ := hb
  omega

theorem samplesBytes_lt (pcm : List Int) : ∀ b ∈ samplesBytes pcm, b < 256 := by
  induction pcm with
  | nil => intro b hb; simp [samplesBytes] at hb
  | cons s ss ih => exact mem_append_lt (u16le_lt _) ih

theorem pcmToWav_bytes_lt (pcm : List Int) (R : Nat) :
    ∀ b ∈ pcmToWav pcm R, b < 256 := by
  rw [pcmToWav_eq]
  exact mem_append_lt (strBytes_lt _) (mem_append_lt (u32le_lt _)
    (mem_append_lt (strBytes_lt _) (mem_append_lt (strBytes_lt _)
    (mem_append_lt (u32le_lt _) (mem_append_lt (u16le_lt _)
    (mem_append_lt (u16le_lt _) (mem_append_lt (u32le_lt _)
    (mem_append_lt (u32le_lt _) (mem_append_lt (u16le_lt _)
    (mem_append_lt (u16le_lt _) (mem_append_lt (strBytes_lt _)
    (mem_append_lt (u32le_lt _) (samplesBytes_lt pcm)))))))))))))

-- ### Claim theorems for the WAV container writer

/-- C1: for every sample sequence and every valid sample rate (one whose
double fits in 32 bits, with a chunk size that also fits), the buffer
returned by `pcmToWav` carries exactly the header values of the spec's
table at the fixed offsets; in particular for no samples at rate 24000 the
buffer is exactly the 44-byte header with ChunkSize 36, ByteRate 48000 and
Subchunk2Size 0. -/
theorem wav_header_fields_exact (pcm : List Int) (R : Nat)
    (hR : R * 2 < 4294967296) (hN : 36 + pcm.length * 2 < 4294967296) :
    (pcmToWav pcm R).take 4 = strBytes "RIFF"
      ∧ readU32LE (pcmToWav pcm R) 4 = 36 + 2 * pcm.length
      ∧ ((pcmToWav pcm R).drop 8).take 4 = strBytes "WAVE"
      ∧ ((pcmToWav pcm R).drop 12).take 4 = strBytes "fmt "
      ∧ readU32LE (pcmToWav pcm R) 16 = 16
      ∧ readU16LE (pcmToWav pcm R) 20 = 1
      ∧ readU16LE (pcmToWav pcm R) 22 = 1
      ∧ readU32LE (pcmToWav pcm R) 24 = R
      ∧ readU32LE (pcmToWav pcm R) 28 = 2 * R
      ∧ readU16LE (pcmToWav pcm R) 32 = 2
      ∧ readU16LE (pcmToWav pcm R) 34 = 16
      ∧ ((pcmToWav pcm R).drop 36).take 4 = strBytes "data"
      ∧ readU32LE (pcmToWav pcm R) 40 = 2 * pcm.length
      ∧ pcmToWav [] 24000 = [82, 73, 70, 70, 36, 0, 0, 0, 87, 65, 86, 69,
          102, 109, 116, 32, 16, 0, 0, 0, 1, 0, 1, 0, 192, 93, 0, 0,
          128, 187, 0, 0, 2, 0, 16, 0, 100, 97, 116, 97, 0, 0, 0, 0] := by
  refine ⟨field_tag_RIFF pcm R, ?_, field_tag_WAVE pcm R, field_tag_fmt pcm R,
    field_sub1Size pcm R, field_audioFormat pcm R, field_numChannels pcm R,
    ?_, ?_, field_blockAlign pcm R, field_bitsPerSample pcm R,
    field_tag_data pcm R, ?_, by decide⟩
  · rw [field_chunkSize]; omega
  · rw [field_sampleRate]; omega
  · rw [field_byteRate]; omega
  · rw [field_sub2Size]; omega

/-- Witness for C1: the header-field theorem applied at the concrete input
of one sample at rate 24000. -/
theorem wav_header_fields_exact_witness :
    (pcmToWav [(5 : Int)] 24000).take 4 = strBytes "RIFF" :=
  (wav_header_fields_exact [(5 : Int)] 24000 (by decide) (by decide)).1

/-- C2: the byte buffer returned by `pcmToWav` always has length exactly
`44 + 2 * N` for `N` samples, whatever the sample rate. -/
theorem wav_buffer_length (pcm : List Int) (R : Nat) :
    (pcmToWav pcm R).length = 44 + 2 * pcm.length :=
  pcmToWav_length_aux pcm R

/-- C6: `pcmToWav` is deterministic: two invocations on the same sample
sequence and sample rate yield byte-identical buffers.  (In this pure
embedding the absence of side effects is structural: the function reads
nothing but its arguments and writes nothing but its result.) -/
theorem pcmToWav_deterministic (pcm : List Int) (R : Nat) :
    pcmToWav pcm R = pcmToWav pcm R := rfl

/-- C7: for the three samples `[100, -1, 32767]` at rate 24000 the buffer
has length 50 and its data bytes decode back, as little-endian signed
16-bit, to 100, -1 and 32767. -/
theorem wav_concrete_three_samples :
    (pcmToWav [100, -1, 32767] 24000).length = 50
      ∧ readI16LE (pcmToWav [100, -1, 32767] 24000) 44 = 100
      ∧ readI16LE (pcmToWav [100, -1, 32767] 24000) 46 = -1
      ∧ readI16LE (pcmToWav [100, -1, 32767] 24000) 48 = 32767 := by decide

/-- C8: `pcmToWav` is total: it is a total function of its two arguments
(termination is structural: one pass over the samples), and on every input
it returns a well-formed byte buffer -- correct length, every entry an
actual byte. -/
theorem pcmToWav_total (pcm : List Int) (R : Nat) :
    (pcmToWav pcm R).length = 44 + 2 * pcm.length
      ∧ (pcmToWav pcm R).all (fun b => decide (b < 256)) = true := by
  refine ⟨pcmToWav_length_aux pcm R, ?_⟩
  rw [List.all_eq_true]
  intro b hb
  simpa using pcmToWav_bytes_lt pcm R b hb

/-- C9: the multi-byte header fields are written with 32-bit wraparound
semantics and no range check: offset 4 holds `(36 + 2N) mod 2^32`, offset
24 holds `R mod 2^32`, offset 28 holds `2R mod 2^32` and offset 40 holds
`2N mod 2^32`, for every `N` and `R`. -/
theorem wav_header_fields_wraparound (pcm : List Int) (R : Nat) :
    readU32LE (pcmToWav pcm R) 4 = (36 + 2 * pcm.length) % 4294967296
      ∧ readU32LE (pcmToWav pcm R) 24 = R % 4294967296
      ∧ readU32LE (pcmToWav pcm R) 28 = (2 * R) % 4294967296
      ∧ readU32LE (pcmToWav pcm R) 40 = (2 * pcm.length) % 4294967296 := by
  refine ⟨?_, field_sampleRate pcm R, ?_, ?_⟩
  · rw [field_chunkSize]
    have h : 36 + pcm.length * 2 = 36 + 2 * pcm.length := by omega
    rw [h]
  · rw [field_byteRate]
    have h : R * 1 * 16 / 8 = 2 * R := by omega
    rw [h]
  · rw [field_sub2Size]
    have h : pcm.length * 2 = 2 * pcm.length := by omega
    rw [h]

-- ### The base64 decoder

theorem b64Val_lt (c : Char) (v : Nat) (h : b64Val c = some v) : v < 64 := by
  unfold b64Val at h
  split_ifs at h <;> simp_all <;> omega

theorem b64Bits_lt (cs : List Char) (vs : List Nat) (h : b64Bits cs = some vs) :
    ∀ v ∈ vs, v < 64 := by
  induction cs generalizing vs with
  | nil =>
    simp only [b64Bits, Option.some.injEq] at h
    subst h
    intro v hv
    simp at hv
  | cons c cs ih =>
    cases hv : b64Val c with
    | none => simp [b64Bits, hv] at h
    | some v =>
      cases hvs : b64Bits cs with
      | none => simp [b64Bits, hv, hvs] at h
      | some vs' =>
        simp only [b64Bits, hv, hvs, Option.some.injEq] at h
        subst h
        intro x hx
        rcases List.mem_cons.mp hx with h1 | h1
        · subst h1; exact b64Val_lt c x hv
        · exact ih vs' hvs x h1

theorem packBits_lt (vs : List Nat) (hv : ∀ v ∈ vs, v < 64) :
    ∀ b ∈ packBits vs, b < 256 := by
  induction vs using packBits.induct with
  | case1 a b c d rest ih =>
    intro x hx
    have ha := hv a (by simp)
    have hb := hv b (by simp)
    have hc := hv c (by simp)
    have hd := hv d (by simp)
    simp only [packBits, List.mem_cons] at hx
    rcases hx with h | h | h | h
    · omega
    · omega
    · omega
    · exact ih (fun v hvm => hv v (by simp [hvm])) x h
  | case2 a b =>
    intro x hx
    have ha := hv a (by simp)
    have hb := hv b (by simp)
    simp only [packBits, List.mem_cons, List.not_mem_nil, or_false] at hx
    omega
  | case3 a b c =>
    intro x hx
    have ha := hv a (by simp)
    have hb := hv b (by simp)
    have hc := hv c (by simp)
    simp only [packBits, List.mem_cons, List.not_mem_nil, or_false] at hx
    rcases hx with h | h <;> omega
  | case4 vs h1 h2 h3 =>
    intro x hx
    simp [packBits] at hx

theorem atob_lt (s : String) (bytes : List Nat) (h : atob s = some bytes) :
    ∀ b ∈ bytes, b < 256 := by
  unfold atob at h
  split at h
  · simp at h
  · cases hbits : b64Bits (atobChars s) with
    | none => rw [hbits] at h; simp at h
    | some vs =>
      rw [hbits] at h
      simp only [Option.some.injEq] at h
      subst h
      exact packBits_lt vs (b64Bits_lt _ vs hbits)

theorem decode_even_aux (s : String) (bytes : List Nat)
    (h : atob s = some bytes) (he : bytes.length % 2 = 0) :
    decodeBase64ToInt16Array s = some (toInt16s bytes) := by
  unfold decodeBase64ToInt16Array
  rw [h]
  have hmap : bytes.map (fun b => b % 256) = bytes := by
    have h1 : ∀ b ∈ bytes, b % 256 = b :=
      fun b hb => Nat.mod_eq_of_lt (atob_lt s bytes h b hb)
    rw [List.map_congr_left h1]
    exact List.map_id' bytes
  show bytesToInt16 (bytes.map (fun b => b % 256)) = some (toInt16s bytes)
  rw [hmap]
  unfold bytesToInt16
  rw [if_pos he]

theorem toInt16s_length (bytes : List Nat) :
    (toInt16s bytes).length = bytes.length / 2 := by
  induction bytes using toInt16s.induct with
  | case1 b0 b1 rest ih =>
    simp only [toInt16s, List.length_cons, ih]
    omega
  | case2 bytes h =>
    cases bytes with
    | nil => rfl
    | cons b t =>
      cases t with
      | nil => simp [toInt16s]
      | cons b1 rest => exact absurd rfl (h b b1 rest)

theorem byteAt_cons2 (a b : Nat) (l : List Nat) (n : Nat) :
    byteAt (a :: b :: l) (n + 2) = byteAt l n := by
  have h : n + 2 = (n + 1) + 1 := by omega
  rw [h, byteAt_cons_succ, byteAt_cons_succ]

theorem readI16LE_cons2 (a b : Nat) (l : List Nat) (n : Nat) :
    readI16LE (a :: b :: l) (n + 2) = readI16LE l n := by
  unfold readI16LE readU16LE
  have h : n + 2 + 1 = n + 1 + 2 := by omega
  rw [h, byteAt_cons2, byteAt_cons2]

theorem toInt16s_getD (i : Nat) (bytes : List Nat) (h : 2 * i + 1 < bytes.length) :
    (toInt16s bytes).getD i 0 = readI16LE bytes (2 * i) := by
  induction i generalizing bytes with
  | zero =>
    match bytes, h with
    | b0 :: b1 :: rest, _ => rfl
  | succ i ih =>
    match bytes, h with
    | b0 :: b1 :: rest, h =>
      have h2 : 2 * (i + 1) = 2 * i + 2 := by omega
      rw [h2, readI16LE_cons2]
      simp only [toInt16s, List.getD_cons_succ]
      exact ih rest (by simp at h; omega)

theorem toInt16s_samplesBytes (S : List Int)
    (hr : ∀ x ∈ S, -32768 ≤ x ∧ x ≤ 32767) :
    toInt16s (samplesBytes S) = S := by
  induction S with
  | nil => rfl
  | cons s ss ih =>
    have hs := hr s (by simp)
    have htail : ∀ x ∈ ss, -32768 ≤ x ∧ x ≤ 32767 :=
      fun x hx => hr x (by simp [hx])
    show toInt16s (i16le s ++ samplesBytes ss) = s :: ss
    have hshape : i16le s ++ samplesBytes ss
        = ((s % 65536).toNat % 256) :: ((s % 65536).toNat / 256 % 256)
          :: samplesBytes ss := rfl
    rw [hshape]
    simp only [toInt16s]
    rw [ih htail]
    have h1 : (0 : Int) ≤ s % 65536 := Int.emod_nonneg s (by omega)
    have h2 : s % 65536 < 65536 := Int.emod_lt_of_pos s (by omega)
    have hmlt : (s % 65536).toNat < 65536 := by omega
    have hrecomp : (s % 65536).toNat % 256
        + 256 * ((s % 65536).toNat / 256 % 256) = (s % 65536).toNat := by
      omega
    congr 1
    rw [hrecomp, Int.toNat_of_nonneg h1]
    split_ifs with hlt
    · omega
    · omega

-- ### Claim theorems for the PCM decoder

/-- C3: round-trip: for a sample sequence `S` of signed 16-bit samples and
a base64 string decoding to the byte serialisation of `S`, decoding with
`decodeBase64ToInt16Array`, wrapping with `pcmToWav` at any rate, and
reading the data section (bytes 44 onward) back as little-endian signed
16-bit integers reproduces `S` exactly. -/
theorem wav_roundtrip (S : List Int) (R : Nat) (s : String)
    (hr : ∀ x ∈ S, -32768 ≤ x ∧ x ≤ 32767)
    (hs : atob s = some (samplesBytes S)) :
    (decodeBase64ToInt16Array s).map
      (fun pcm => toInt16s ((pcmToWav pcm R).drop 44)) = some S := by
  have he : (samplesBytes S).length % 2 = 0 := by
    rw [samplesBytes_length]; omega
  rw [decode_even_aux s _ hs he, toInt16s_samplesBytes S hr]
  show some (toInt16s ((pcmToWav S R).drop 44)) = some S
  rw [wav_data_section, toInt16s_samplesBytes S hr]

/-- Witness for C3: the round-trip theorem applied to the two samples
`[100, -1]` encoded as the base64 string `"ZAD//w=="`. -/
theorem wav_roundtrip_witness :
    (decodeBase64ToInt16Array "ZAD//w==").map
      (fun pcm => toInt16s ((pcmToWav pcm 24000).drop 44)) = some [100, -1] :=
  wav_roundtrip [100, -1] 24000 "ZAD//w==" (by decide) (by decide)

/-- C4: for a base64 input whose decoded byte payload has even length `L`,
`decodeBase64ToInt16Array` succeeds with exactly `L / 2` samples, sample
`i` being the little-endian signed 16-bit interpretation of decoded bytes
`2i` and `2i + 1`. -/
theorem decode_even_spec (s : String) (bytes : List Nat)
    (h : atob s = some bytes) (he : bytes.length % 2 = 0) :
    ∃ out, decodeBase64ToInt16Array s = some out
      ∧ out.length = bytes.length / 2
      ∧ ∀ i, i < out.length → out.getD i 0 = readI16LE bytes (2 * i) := by
  refine ⟨toInt16s bytes, decode_even_aux s bytes h he, toInt16s_length bytes, ?_⟩
  intro i hi
  rw [toInt16s_length] at hi
  exact toInt16s_getD i bytes (by omega)

/-- Witness for C4: the even-length theorem applied to `"AAA="`, whose
payload is the two bytes `[0, 0]`. -/
theorem decode_even_spec_witness :
    ∃ out, decodeBase64ToInt16Array "AAA=" = some out
      ∧ out.length = ([0, 0] : List Nat).length / 2
      ∧ ∀ i, i < out.length → out.getD i 0 = readI16LE [0, 0] (2 * i) :=
  decode_even_spec "AAA=" [0, 0] (by decide) (by decide)

/-- Counterexample to C5 as stated: at `"AA=="` the decoded payload is the
single byte `[0]` (odd length), so the claimed truncation semantics would
return the empty sample list; the code instead throws (the `Int16Array`
constructor raises a `RangeError`), modelled as `none`. -/
theorem decode_odd_counterexample :
    atob "AA==" = some [0]
      ∧ decodeBase64ToInt16Array "AA==" = none
      ∧ decodeBase64ToInt16Array "AA==" ≠ some [] := by decide

/-- C5 amended: for every base64 input whose decoded byte payload has odd
length, `decodeBase64ToInt16Array` rejects the input by throwing (the
`Int16Array` constructor raises a `RangeError` on an odd-length buffer,
modelled as `none`); no truncated sample list is returned. -/
theorem decode_odd_rejects (s : String) (bytes : List Nat)
    (h : atob s = some bytes) (ho : bytes.length % 2 = 1) :
    decodeBase64ToInt16Array s = none := by
  unfold decodeBase64ToInt16Array
  rw [h]
  show bytesToInt16 (bytes.map (fun b => b % 256)) = none
  unfold bytesToInt16
  rw [if_neg (by simp only [List.length_map]; omega)]

/-- Witness for the amended C5: `"/w=="` decodes to the single byte
`[255]` and the decoder rejects it. -/
theorem decode_odd_rejects_witness : decodeBase64ToInt16Array "/w==" = none :=
  decode_odd_rejects "/w==" [255] (by decide) (by decide)

-- ### The SRT cleanup helper

theorem dropWhile_head_not (p : Char → Bool) (l : List Char) (c : Char)
    (cs : List Char) (h : l.dropWhile p = c :: cs) : p c = false := by
  induction l with
  | nil => simp [List.dropWhile] at h
  | cons x xs ih =>
    by_cases hx : p x = true
    · rw [List.dropWhile_cons_of_pos hx] at h
      exact ih h
    · rw [List.dropWhile_cons_of_neg hx] at h
      cases h
      simpa using hx

theorem mem_of_dropWhile (p : Char → Bool) (l : List Char) (c : Char)
    (h : c ∈ l.dropWhile p) : c ∈ l := by
  have h2 : l = l.takeWhile p ++ l.dropWhile p :=
    (List.takeWhile_append_dropWhile p l).symm
  rw [h2]
  exact List.mem_append_right _ h

theorem dropWhile_of_headOk (t : List Char) (h : headOk t = true) :
    t.dropWhile jsWs = t := by
  cases t with
  | nil => rfl
  | cons c cs =>
    simp only [headOk, Bool.not_eq_true'] at h
    rw [List.dropWhile_cons_of_neg (by simp [h])]

theorem trim_cons_ws (c : Char) (x : List Char) (h : jsWs c = true) :
    trimChars (c :: x) = trimChars x := by
  unfold trimChars
  rw [List.dropWhile_cons_of_pos h]

theorem trim_of_ok (t : List Char) (h1 : headOk t = true)
    (h2 : headOk t.reverse = true) : trimChars t = t := by
  unfold trimChars
  rw [dropWhile_of_headOk t h1, dropWhile_of_headOk t.reverse h2,
    List.reverse_reverse]

theorem mem_trimChars (t : List Char) (c : Char) (hc : c ∈ trimChars t) :
    c ∈ t := by
  unfold trimChars at hc
  rw [List.mem_reverse] at hc
  have h1 : c ∈ (t.dropWhile jsWs).reverse := mem_of_dropWhile jsWs _ c hc
  rw [List.mem_reverse] at h1
  exact mem_of_dropWhile jsWs t c h1

theorem headOk_of_front_part (x y a : List Char) (hxy : x ++ y = a)
    (hx : x ≠ []) (hA : headOk a = true) : headOk x = true := by
  cases x with
  | nil => exact absurd rfl hx
  | cons d ds =>
    rw [← hxy] at hA
    simpa [headOk] using hA

theorem trim_headOk (l : List Char) (h : trimChars l ≠ []) :
    headOk (trimChars l) = true ∧ headOk (trimChars l).reverse = true := by
  have htrim : trimChars l
      = ((l.dropWhile jsWs).reverse.dropWhile jsWs).reverse := rfl
  rw [htrim] at h ⊢
  have hbne : (l.dropWhile jsWs).reverse.dropWhile jsWs ≠ [] := by
    intro hbeq
    rw [hbeq] at h
    exact h rfl
  obtain ⟨c, cs, hcons⟩ : ∃ c cs,
      (l.dropWhile jsWs).reverse.dropWhile jsWs = c :: cs := by
    cases hbb : (l.dropWhile jsWs).reverse.dropWhile jsWs with
    | nil => exact absurd hbb hbne
    | cons c cs => exact ⟨c, cs, rfl⟩
  constructor
  · have hA : headOk (l.dropWhile jsWs) = true := by
      cases haa : l.dropWhile jsWs with
      | nil =>
        exfalso
        apply hbne
        rw [haa]
        rfl
      | cons d ds => simp [headOk, dropWhile_head_not jsWs l d ds haa]
    have hxy : ((l.dropWhile jsWs).reverse.dropWhile jsWs).reverse
        ++ ((l.dropWhile jsWs).reverse.takeWhile jsWs).reverse
        = l.dropWhile jsWs := by
      rw [← List.reverse_append, List.takeWhile_append_dropWhile,
        List.reverse_reverse]
    exact headOk_of_front_part _ _ _ hxy h hA
  · rw [List.reverse_reverse, hcons]
    simp [headOk, dropWhile_head_not jsWs _ c cs hcons]

theorem skip_eq (t : List Char) : skipLine t = specSkip t := by
  cases t with
  | nil => rfl
  | cons c cs => simp [skipLine, specSkip]

theorem foldl_addLine (ls : List (List Char)) (d : List Char) :
    ls.foldl addLine d
      = d ++ flattenSp ((ls.map trimChars).filter (fun t => !specSkip t)) := by
  induction ls generalizing d with
  | nil => simp [flattenSp]
  | cons l ls2 ih =>
    show ls2.foldl addLine (addLine d l) = _
    rw [ih]
    unfold addLine
    rw [skip_eq]
    by_cases hs : specSkip (trimChars l) = true
    · rw [if_pos hs, List.map_cons, List.filter_cons_of_neg (by simp [hs])]
    · rw [if_neg hs, List.map_cons, List.filter_cons_of_pos (by simp [hs])]
      show (d ++ (' ' :: trimChars l)) ++ _ = _
      simp only [flattenSp, List.append_assoc, List.cons_append]

theorem flattenSp_eq (ls : List (List Char)) :
    flattenSp ls = if ls.isEmpty then [] else ' ' :: joinSp ls := by
  induction ls with
  | nil => rfl
  | cons l ls2 ih =>
    cases ls2 with
    | nil => simp [flattenSp, joinSp]
    | cons l2 ls3 =>
      show ' ' :: (l ++ flattenSp (l2 :: ls3)) = _
      rw [ih]
      simp [joinSp]

theorem joinSp_ne_nil (l : List Char) (ls : List (List Char)) (hl : l ≠ []) :
    joinSp (l :: ls) ≠ [] := by
  cases ls with
  | nil => simpa [joinSp] using hl
  | cons l2 ls2 => simp [joinSp]

theorem headOk_ne_nil (t : List Char) (h : headOk t = true) : t ≠ [] := by
  cases t with
  | nil => simp [headOk] at h
  | cons c cs => simp

theorem headOk_append (xs ys : List Char) (h : headOk xs = true) :
    headOk (xs ++ ys) = true := by
  cases xs with
  | nil => simp [headOk] at h
  | cons c cs => simpa [headOk] using h

theorem joinSp_ok : ∀ ls : List (List Char),
    (∀ t ∈ ls, headOk t = true ∧ headOk t.reverse = true) → ls ≠ [] →
    headOk (joinSp ls) = true ∧ headOk (joinSp ls).reverse = true := by
  intro ls
  induction ls with
  | nil => intro _ hne; exact absurd rfl hne
  | cons l ls2 ih =>
    intro h _
    cases ls2 with
    | nil => simpa [joinSp] using h l (by simp)
    | cons l2 ls3 =>
      have hl := h l (by simp)
      have hrest : ∀ t ∈ l2 :: ls3, headOk t = true ∧ headOk t.reverse = true :=
        fun t ht => h t (by simp [ht])
      have hjr := ih hrest (by simp)
      have hjne : joinSp (l2 :: ls3) ≠ [] := headOk_ne_nil _ hjr.1
      constructor
      · show headOk (l ++ (' ' :: joinSp (l2 :: ls3))) = true
        exact headOk_append _ _ hl.1
      · show headOk (l ++ (' ' :: joinSp (l2 :: ls3))).reverse = true
        rw [List.reverse_append, List.reverse_cons]
        rw [List.append_assoc]
        exact headOk_append _ _ hjr.2

theorem kept_ok (content : List Char) :
    ∀ t ∈ keptLines content, headOk t = true ∧ headOk t.reverse = true := by
  intro t ht
  unfold keptLines at ht
  rw [List.mem_filter] at ht
  obtain ⟨hmem, hns⟩ := ht
  rw [List.mem_map] at hmem
  obtain ⟨l, _, hl⟩ := hmem
  have htne : t ≠ [] := by
    intro he
    subst he
    simp [specSkip] at hns
  have hres := trim_headOk l (by rw [hl]; exact htne)
  rw [hl] at hres
  exact hres

theorem parseSrt_eq_joinSp (content : List Char) :
    parseSrt content = joinSp (keptLines content) := by
  unfold parseSrt
  rw [foldl_addLine, List.nil_append, flattenSp_eq]
  show trimChars (if (keptLines content).isEmpty then [] else
    ' ' :: joinSp (keptLines content)) = joinSp (keptLines content)
  cases hkept : keptLines content with
  | nil => rfl
  | cons k ks =>
    rw [List.isEmpty_cons]
    show trimChars (' ' :: joinSp (k :: ks)) = joinSp (k :: ks)
    rw [trim_cons_ws ' ' _ (by decide)]
    have hok := joinSp_ok (k :: ks)
      (fun t ht => by
        apply kept_ok content
        rw [hkept]
        exact ht)
      (by simp)
    exact trim_of_ok _ hok.1 hok.2

theorem startsWith_arrow_sep (u v : List Char) :
    startsWith arrowChars (u ++ ' ' :: v) = startsWith arrowChars u := by
  rcases u with _ | ⟨a, _ | ⟨b, _ | ⟨c, u2⟩⟩⟩ <;> simp [startsWith, arrowChars]

theorem containsSeq_arrow_sep (xs ys : List Char) :
    containsSeq arrowChars (xs ++ ' ' :: ys)
      = (containsSeq arrowChars xs || containsSeq arrowChars ys) := by
  induction xs with
  | nil => simp [containsSeq, startsWith, arrowChars]
  | cons x xs ih =>
    rw [List.cons_append]
    show (startsWith arrowChars (x :: (xs ++ ' ' :: ys))
        || containsSeq arrowChars (xs ++ ' ' :: ys)) = _
    rw [ih, ← List.cons_append, startsWith_arrow_sep]
    show _ = (startsWith arrowChars (x :: xs) || containsSeq arrowChars xs
        || containsSeq arrowChars ys)
    rw [Bool.or_assoc]

theorem joinSp_no_arrow : ∀ ls : List (List Char),
    (∀ t ∈ ls, containsSeq arrowChars t = false) →
    containsSeq arrowChars (joinSp ls) = false := by
  intro ls
  induction ls with
  | nil => intro _; rfl
  | cons l ls2 ih =>
    intro h
    cases ls2 with
    | nil => simpa [joinSp] using h l (by simp)
    | cons l2 ls3 =>
      show containsSeq arrowChars (l ++ ' ' :: joinSp (l2 :: ls3)) = false
      rw [containsSeq_arrow_sep, h l (by simp),
        ih (fun t ht => h t (by simp [ht]))]
      rfl

theorem splitOnNl_ne_nil (cs : List Char) : splitOnNl cs ≠ [] := by
  cases cs with
  | nil => simp [splitOnNl]
  | cons c cs2 =>
    unfold splitOnNl
    split
    · simp
    · cases h : splitOnNl cs2 <;> simp [h]

theorem splitOnNl_no_nl : ∀ cs : List Char, ∀ l ∈ splitOnNl cs,
    ∀ c ∈ l, c ≠ '\n' := by
  intro cs
  induction cs with
  | nil =>
    intro l hl c hc
    simp only [splitOnNl, List.mem_singleton] at hl
    subst hl
    simp at hc
  | cons x cs2 ih =>
    intro l hl c hc
    unfold splitOnNl at hl
    by_cases hx : x = '\n'
    · rw [if_pos hx] at hl
      rcases List.mem_cons.mp hl with h | h
      · subst h; simp at hc
      · exact ih l h c hc
    · rw [if_neg hx] at hl
      cases hsp : splitOnNl cs2 with
      | nil => exact absurd hsp (splitOnNl_ne_nil cs2)
      | cons l0 ls0 =>
        rw [hsp] at hl
        rcases List.mem_cons.mp hl with h | h
        · subst h
          rcases List.mem_cons.mp hc with h2 | h2
          · subst h2; exact hx
          · exact ih l0 (by rw [hsp]; simp) c h2
        · exact ih l (by rw [hsp]; simp [h]) c hc

theorem mem_joinSp : ∀ (ls : List (List Char)) (c : Char), c ∈ joinSp ls →
    c = ' ' ∨ ∃ t ∈ ls, c ∈ t := by
  intro ls
  induction ls with
  | nil => intro c hc; simp [joinSp] at hc
  | cons l ls2 ih =>
    intro c hc
    cases ls2 with
    | nil =>
      right
      exact ⟨l, by simp, by simpa [joinSp] using hc⟩
    | cons l2 ls3 =>
      rw [show joinSp (l :: l2 :: ls3) = l ++ (' ' :: joinSp (l2 :: ls3))
        from rfl] at hc
      rcases List.mem_append.mp hc with h | h
      · right; exact ⟨l, by simp, h⟩
      · rcases List.mem_cons.mp h with h2 | h2
        · left; exact h2
        · rcases ih c h2 with h3 | ⟨t, ht, hct⟩
          · left; exact h3
          · right; exact ⟨t, List.mem_cons_of_mem l ht, hct⟩

theorem kept_no_arrow (content : List Char) :
    ∀ t ∈ keptLines content, containsSeq arrowChars t = false := by
  intro t ht
  unfold keptLines at ht
  rw [List.mem_filter] at ht
  have hns := ht.2
  simp only [specSkip, Bool.not_eq_true', Bool.or_eq_false_iff] at hns
  exact hns.2

theorem kept_no_nl (content : List Char) :
    ∀ t ∈ keptLines content, ∀ c ∈ t, c ≠ '\n' := by
  intro t ht c hc
  unfold keptLines at ht
  rw [List.mem_filter] at ht
  have hmem := ht.1
  rw [List.mem_map] at hmem
  obtain ⟨l, hlmem, hlt⟩ := hmem
  rw [← hlt] at hc
  exact splitOnNl_no_nl _ l hlmem c (mem_trimChars l c hc)

-- ### Claim theorem for the SRT cleanup helper

/-- C10: `parseSrt` returns the trimmed single-space join of the trimmed
lines of its input (carriage returns removed, split on newlines),
excluding every line that trims to empty, consists solely of decimal
digits, or contains the substring `-->`; in particular the result never
contains `-->` and never contains a newline. -/
theorem parseSrt_spec (content : List Char) :
    parseSrt content = joinSp (keptLines content)
      ∧ containsSeq arrowChars (parseSrt content) = false
      ∧ (parseSrt content).all (fun c => !(c == '\n')) = true := by
  have heq := parseSrt_eq_joinSp content
  refine ⟨heq, ?_, ?_⟩
  · rw [heq]
    exact joinSp_no_arrow _ (kept_no_arrow content)
  · rw [heq, List.all_eq_true]
    intro c hcmem
    rcases mem_joinSp _ c hcmem with h | ⟨t, ht, hct⟩
    · subst h; decide
    · simpa using kept_no_nl content t ht c hct
